import Mathlib

/-!
Verification development for the `wordwrap` Go package (`writer.go`).

The embedding models UTF-8 text as lists of Unicode scalar values
(`List Char`); the package assumes its input arrives in valid-encoding
chunks whose boundaries fall at character boundaries, so a decoded rune
sequence is a faithful view of the byte stream.  Byte counts (which the
Go code uses for `bytes.Buffer.Len`, for the returned `n`, and for tab
accounting) are recovered with `utf8Len` via `Char.utf8Size`, which
agrees with Go's `utf8.EncodeRune`/`DecodeRune` sizes on valid runes.

The attached `io.Writer` sink is modelled inside the state: `out`
accumulates every byte the sink was asked to write, `sinkFails` selects
a sink whose `Write` accepts the bytes but reports an error (a legal
`io.Writer`: it may return `n = len(p)` together with a non-nil error),
and `sinkErred` records whether any sink call ever returned an error.
`bytes.Buffer` (the in-memory sink of the one-shot helpers) never
fails, which is `sinkFails = false`.
-/

namespace Wordwrap

/-- Go `unicode.IsSpace`: the Unicode White_Space property. -/
def isSpaceRune (c : Char) : Bool :=
  let n := c.toNat
  (0x9 ≤ n && n ≤ 0xd) || n == 0x20 || n == 0x85 || n == 0xa0 ||
  n == 0x1680 || (0x2000 ≤ n && n ≤ 0x200a) || n == 0x2028 || n == 0x2029 ||
  n == 0x202f || n == 0x205f || n == 0x3000

/-- UTF-8 byte length of a rune sequence (Go `len` of the encoded bytes,
`bytes.Buffer.Len` of a buffer holding exactly these runes). -/
def utf8Len (s : List Char) : Nat := (s.map Char.utf8Size).sum

/-- The Go `Writer` struct, together with the modelled sink (see the
file header).  The Go field `prefix` is called `pfx` here because
`prefix` is reserved in Lean; `tabWidh` keeps the source's spelling. -/
structure Writer where
  width : Int              -- recommended line length in runes
  tabWidh : Int            -- the width of tab characters
  pos : Int                -- current line position
  space : List Char        -- trailing word spaces (Go `bytes.Buffer`)
  word : List Char         -- word builder (Go `bytes.Buffer`)
  wordLen : Int            -- word length in runes
  newLine : Bool           -- newline flag
  pfx : List Char          -- Go `prefix`: prefix for new line
  pfxLen : Int             -- Go `prefixLen`: prefix length in runes
  breakpoints : List Char  -- additional word break runes
  out : List Char          -- sink model: all bytes written to the sink
  sinkFails : Bool         -- sink model: every sink write reports an error
  sinkErred : Bool         -- sink model: some sink write reported an error
deriving DecidableEq, Repr

/-- One call of the sink's `Write` with a non-empty byte sequence. -/
def sinkWrite (w : Writer) (s : List Char) : Writer × Option Unit :=
  ({ w with out := w.out ++ s, sinkErred := w.sinkErred || w.sinkFails },
   if w.sinkFails then some () else none)

/-- Go `w.space.WriteTo(w.writer)`: drains the buffer into the sink;
`bytes.Buffer.WriteTo` does not call the sink when the buffer is empty. -/
def spaceWriteTo (w : Writer) : Writer × Option Unit :=
  if w.space = [] then (w, none)
  else
    let r := sinkWrite w w.space
    ({ r.1 with space := [] }, r.2)

/-- Go `w.word.WriteTo(w.writer)`, as `spaceWriteTo` for the word buffer. -/
def wordWriteTo (w : Writer) : Writer × Option Unit :=
  if w.word = [] then (w, none)
  else
    let r := sinkWrite w w.word
    ({ r.1 with word := [] }, r.2)

/-- Go `Writer.writeSpaces`. -/
def writeSpaces (w : Writer) : Writer × Option Unit :=
  spaceWriteTo { w with pos := w.pos + (utf8Len w.space : Int) }

/-- Go `Writer.writePrefix`. -/
def writePrefix (w : Writer) : Writer × Option Unit :=
  if w.newLine = false ∨ w.pfxLen < 1 then (w, none)
  else
    sinkWrite { w with newLine := false, pos := w.pos + w.pfxLen } w.pfx

/-- Go `Writer.writeWord`. -/
def writeWord (w : Writer) : Writer × Option Unit :=
  if w.wordLen < 1 then (w, none)
  else
    match writePrefix w with
    | (w, some u) => (w, some u)
    | (w, none) =>
      match writeSpaces w with
      | (w, some u) => (w, some u)
      | (w, none) =>
        let (w, e) := wordWriteTo w
        ({ w with pos := w.pos + w.wordLen, wordLen := 0 }, e)

/-- Go `Writer.writeNewLine`. -/
def writeNewLine (w : Writer) : Writer × Option Unit :=
  match writePrefix w with
  | (w, some u) => (w, some u)
  | (w, none) =>
    sinkWrite { w with newLine := true, pos := 0, space := [] } ['\n']

/-- Go `Writer.isBreakpoint`. -/
def isBreakpoint (w : Writer) (c : Char) : Bool := w.breakpoints.contains c

/-- The body of `Writer.Write`'s rune loop for one decoded rune; all
errors of the internal writes are discarded exactly as in the source. -/
def processChar (w : Writer) (c : Char) : Writer :=
  if c = '\n' then -- end of current line
    let w :=
      if w.wordLen = 0 then
        if w.pos + (utf8Len w.space : Int) > w.width then
          { w with pos := 0, space := [] }
        else
          (spaceWriteTo w).1 -- preserve whitespace
      else w
    let w := (writeWord w).1
    (writeNewLine w).1
  else if isSpaceRune c then -- end of current word
    let w := (writeWord w).1
    if c = '\t' ∧ w.tabWidh > 0 then
      { w with space :=
          w.space ++ List.replicate (w.tabWidh - Int.tmod w.pos w.tabWidh).toNat ' ' }
    else
      { w with space := w.space ++ [c] }
  else if isBreakpoint w c then -- valid breakpoint
    let w := (writeSpaces w).1
    let w := (writeWord w).1
    let w := (sinkWrite w [c]).1
    { w with pos := w.pos + 1 }
  else -- any other character
    let w := { w with word := w.word ++ [c], wordLen := w.wordLen + 1 }
    if w.pos + w.wordLen + (utf8Len w.space : Int) ≥ w.width ∧ w.wordLen ≤ w.width
    then (writeNewLine w).1
    else w

/-- `Writer.Write`'s rune loop. -/
def writeLoop (w : Writer) : List Char → Writer
  | [] => w
  | c :: cs => writeLoop (processChar w c) cs

/-- Go `Writer.Write`.  Returns the final state, the reported byte
count `n` and the reported error.  In the wrapping path the source
accumulates `n += size` for every decoded rune and never assigns `err`
(its named error return), so it reports the full byte length and `nil`. -/
def write (w : Writer) (cs : List Char) : Writer × Nat × Option Unit :=
  if w.width < 1 then
    let (w1, e) := sinkWrite w cs -- no wrap
    (w1, utf8Len cs, e)
  else
    let w1 := writeLoop w cs
    let w2 := (writeWord w1).1 -- output last word
    (w2, utf8Len cs, none)

/-- Go `New(w, width uint)`: only the sink and the width are set, all
other fields start at their zero values.  (`int(width)` is modelled as
the exact value; the claims treat the `uint` parameter as a
mathematical non-negative integer.) -/
def new (sinkFails : Bool) (width : Nat) : Writer :=
  { width := (width : Int), tabWidh := 0, pos := 0, space := [], word := [],
    wordLen := 0, newLine := false, pfx := [], pfxLen := 0, breakpoints := [],
    out := [], sinkFails := sinkFails, sinkErred := false }

/-- Go `Writer.SetTabWidth`. -/
def setTabWidth (w : Writer) (width : Int) : Writer := { w with tabWidh := width }

/-- Go `Writer.SetPrefix` (`prefixLen` is the rune count of the prefix). -/
def setPrefix (w : Writer) (s : List Char) : Writer :=
  { w with pfx := s, pfxLen := (s.length : Int) }

/-- Go `Writer.SetBreakpoints`. -/
def setBreakpoints (w : Writer) (s : List Char) : Writer := { w with breakpoints := s }

/-- Go `Writer.SetPosition`. -/
def setPosition (w : Writer) (p : Int) : Writer := { w with pos := p }

/-- Go `Writer.WriteString`: delegates to `Write` on the string's bytes. -/
def writeString (w : Writer) (s : List Char) : Writer × Nat × Option Unit :=
  write w s

/-- Go `Writer.WriteByte` (the byte is assumed to be a valid one-byte rune). -/
def writeByte (w : Writer) (c : Char) : Writer × Nat × Option Unit :=
  write w [c]

/-- Go `Writer.WriteRune`: encodes the rune and delegates to `Write`. -/
def writeRune (w : Writer) (c : Char) : Writer × Nat × Option Unit :=
  write w [c]

/-- Go `String(s, width)`: a fresh default `Writer` over an in-memory
buffer (a sink that never fails), fed the whole string by `WriteString`. -/
def wrapString (s : List Char) (width : Nat) : List Char :=
  (writeString (new false width) s).1.out

/-- Go `Bytes(b, width)`: a fresh default `Writer` over an in-memory
buffer, fed the whole input by one `Write`. -/
def wrapBytes (b : List Char) (width : Nat) : List Char :=
  (write (new false width) b).1.out

/-! ### Basic lemmas about the operations -/

/-- The configuration fields of the state: everything the rune loop reads
but never writes. -/
def config (w : Writer) : Int × Int × List Char × Int × List Char × Bool :=
  (w.width, w.tabWidh, w.pfx, w.pfxLen, w.breakpoints, w.sinkFails)

lemma config_sinkWrite (w : Writer) (s : List Char) :
    config (sinkWrite w s).1 = config w := rfl

lemma config_spaceWriteTo (w : Writer) : config (spaceWriteTo w).1 = config w := by
  unfold spaceWriteTo
  split <;> rfl

lemma config_wordWriteTo (w : Writer) : config (wordWriteTo w).1 = config w := by
  unfold wordWriteTo
  split <;> rfl

lemma config_writeSpaces (w : Writer) : config (writeSpaces w).1 = config w :=
  config_spaceWriteTo _

lemma config_writePrefix (w : Writer) : config (writePrefix w).1 = config w := by
  unfold writePrefix
  split <;> rfl

lemma config_writeWord (w : Writer) : config (writeWord w).1 = config w := by
  unfold writeWord
  split
  · rfl
  · split
    next w1 u heq =>
      have h1 := config_writePrefix w
      rw [heq] at h1
      exact h1
    next w1 heq =>
      have h1 := config_writePrefix w
      rw [heq] at h1
      split
      next w2 u heq2 =>
        have h2 := config_writeSpaces w1
        rw [heq2] at h2
        exact h2.trans h1
      next w2 heq2 =>
        have h2 := config_writeSpaces w1
        rw [heq2] at h2
        have h3 := config_wordWriteTo w2
        exact (h3.trans h2).trans h1

lemma config_writeNewLine (w : Writer) : config (writeNewLine w).1 = config w := by
  unfold writeNewLine
  split
  next w1 u heq =>
    have h1 := config_writePrefix w
    rw [heq] at h1
    exact h1
  next w1 heq =>
    have h1 := config_writePrefix w
    rw [heq] at h1
    exact (config_sinkWrite _ _).trans h1

lemma config_processChar (w : Writer) (c : Char) :
    config (processChar w c) = config w := by
  unfold processChar
  dsimp only
  split
  · have h1 : config (if w.wordLen = 0 then
        if w.pos + (utf8Len w.space : Int) > w.width then
          { w with pos := 0, space := [] }
        else (spaceWriteTo w).1
      else w) = config w := by
      split
      · split
        · rfl
        · exact config_spaceWriteTo w
      · rfl
    exact (config_writeNewLine _).trans ((config_writeWord _).trans h1)
  · split
    · split
      · exact config_writeWord w
      · exact config_writeWord w
    · split
      · exact ((config_sinkWrite (writeWord (writeSpaces w).1).1 [c]).trans
          ((config_writeWord _).trans (config_writeSpaces _)))
      · split
        · exact config_writeNewLine _
        · rfl

lemma config_writeLoop (w : Writer) (cs : List Char) :
    config (writeLoop w cs) = config w := by
  induction cs generalizing w with
  | nil => rfl
  | cons c cs ih => exact (ih _).trans (config_processChar w c)

lemma width_writeLoop (w : Writer) (cs : List Char) :
    (writeLoop w cs).width = w.width :=
  congrArg (fun p => p.1) (config_writeLoop w cs)

lemma writeLoop_append (w : Writer) (a b : List Char) :
    writeLoop w (a ++ b) = writeLoop (writeLoop w a) b := by
  induction a generalizing w with
  | nil => rfl
  | cons c a ih => simp [writeLoop, ih]

lemma writeWord_of_lt (w : Writer) (h : w.wordLen < 1) : writeWord w = (w, none) := by
  unfold writeWord
  simp [h]

/-- Number of newline bytes in a byte sequence. -/
def countNL (l : List Char) : Nat := l.count '\n'

lemma countNL_le_spaceWriteTo (w : Writer) :
    countNL w.out ≤ countNL (spaceWriteTo w).1.out := by
  unfold spaceWriteTo
  split
  · exact le_refl _
  · simp [sinkWrite, countNL, List.count_append]

lemma countNL_le_writeSpaces (w : Writer) :
    countNL w.out ≤ countNL (writeSpaces w).1.out :=
  countNL_le_spaceWriteTo { w with pos := w.pos + (utf8Len w.space : Int) }

lemma countNL_le_wordWriteTo (w : Writer) :
    countNL w.out ≤ countNL (wordWriteTo w).1.out := by
  unfold wordWriteTo
  split
  · exact le_refl _
  · simp [sinkWrite, countNL, List.count_append]

lemma countNL_le_writePrefix (w : Writer) :
    countNL w.out ≤ countNL (writePrefix w).1.out := by
  unfold writePrefix
  split
  · exact le_refl _
  · simp [sinkWrite, countNL, List.count_append]

lemma countNL_le_writeWord (w : Writer) :
    countNL w.out ≤ countNL (writeWord w).1.out := by
  unfold writeWord
  split
  · exact le_refl _
  · split
    next w1 u heq =>
      have h1 := countNL_le_writePrefix w
      rw [heq] at h1
      exact h1
    next w1 heq =>
      have h1 := countNL_le_writePrefix w
      rw [heq] at h1
      split
      next w2 u heq2 =>
        have h2 := countNL_le_writeSpaces w1
        rw [heq2] at h2
        exact le_trans h1 h2
      next w2 heq2 =>
        have h2 := countNL_le_writeSpaces w1
        rw [heq2] at h2
        have h3 := countNL_le_wordWriteTo w2
        exact le_trans (le_trans h1 h2) h3

lemma writePrefix_some (w w1 : Writer) (u : Unit)
    (heq : writePrefix w = (w1, some u)) : w.sinkFails = true := by
  unfold writePrefix at heq
  split at heq
  · simp at heq
  · simp only [sinkWrite, Prod.mk.injEq] at heq
    rcases heq with ⟨-, heq⟩
    split at heq
    · assumption
    · simp at heq

lemma countNL_writeNewLine (w : Writer) (hf : w.sinkFails = false) :
    countNL w.out + 1 ≤ countNL (writeNewLine w).1.out := by
  unfold writeNewLine
  split
  next w1 u heq =>
    rw [writePrefix_some w w1 u heq] at hf
    exact absurd hf (by simp)
  next w1 heq =>
    have h1 := countNL_le_writePrefix w
    rw [heq] at h1
    simp [sinkWrite, countNL, List.count_append] at h1 ⊢
    omega

lemma sinkFails_spaceWriteTo (w : Writer) :
    (spaceWriteTo w).1.sinkFails = w.sinkFails :=
  congrArg (fun p => p.2.2.2.2.2) (config_spaceWriteTo w)

lemma sinkFails_writeWord (w : Writer) :
    (writeWord w).1.sinkFails = w.sinkFails :=
  congrArg (fun p => p.2.2.2.2.2) (config_writeWord w)

lemma sinkFails_processChar (w : Writer) (c : Char) :
    (processChar w c).sinkFails = w.sinkFails :=
  congrArg (fun p => p.2.2.2.2.2) (config_processChar w c)

lemma countNL_processChar (w : Writer) (c : Char) (hf : w.sinkFails = false) :
    countNL w.out + (if c = '\n' then 1 else 0) ≤ countNL (processChar w c).out := by
  unfold processChar
  dsimp only
  split
  next hc =>
    have m1 : countNL w.out ≤
        countNL (if w.wordLen = 0 then
          if w.pos + (utf8Len w.space : Int) > w.width then
            { w with pos := 0, space := [] }
          else (spaceWriteTo w).1
        else w).out ∧
        (if w.wordLen = 0 then
          if w.pos + (utf8Len w.space : Int) > w.width then
            { w with pos := 0, space := [] }
          else (spaceWriteTo w).1
        else w).sinkFails = false := by
      split
      · split
        · exact ⟨le_refl _, hf⟩
        · exact ⟨countNL_le_spaceWriteTo w, (sinkFails_spaceWriteTo w).trans hf⟩
      · exact ⟨le_refl _, hf⟩
    have m2 := countNL_le_writeWord (if w.wordLen = 0 then
          if w.pos + (utf8Len w.space : Int) > w.width then
            { w with pos := 0, space := [] }
          else (spaceWriteTo w).1
        else w)
    have m3 := countNL_writeNewLine (writeWord (if w.wordLen = 0 then
          if w.pos + (utf8Len w.space : Int) > w.width then
            { w with pos := 0, space := [] }
          else (spaceWriteTo w).1
        else w)).1 (by rw [sinkFails_writeWord]; exact m1.2)
    omega
  next hc =>
    split
    · split
      · exact le_of_eq_of_le (Nat.add_zero _) (countNL_le_writeWord w)
      · exact le_of_eq_of_le (Nat.add_zero _) (countNL_le_writeWord w)
    · split
      · have h1 := countNL_le_writeSpaces w
        have h2 := countNL_le_writeWord (writeSpaces w).1
        have h3 : countNL (writeWord (writeSpaces w).1).1.out ≤
            countNL (sinkWrite (writeWord (writeSpaces w).1).1 [c]).1.out := by
          simp [sinkWrite, countNL, List.count_append]
        exact le_of_eq_of_le (Nat.add_zero _) (le_trans (le_trans h1 h2) h3)
      · split
        next hcond =>
          have h2 := countNL_writeNewLine { w with word := w.word ++ [c], wordLen := w.wordLen + 1 } hf
          dsimp only at h2
          omega
        · exact le_of_eq_of_le (Nat.add_zero _) (le_refl _)

lemma countNL_writeLoop (w : Writer) (cs : List Char) (hf : w.sinkFails = false) :
    countNL w.out + countNL cs ≤ countNL (writeLoop w cs).out := by
  induction cs generalizing w with
  | nil => simp [writeLoop, countNL]
  | cons c cs ih =>
    have h1 := countNL_processChar w c hf
    have h2 := ih (processChar w c) ((sinkFails_processChar w c).trans hf)
    simp only [writeLoop]
    rcases eq_or_ne c '\n' with hc | hc
    · subst hc
      have h3 : countNL ('\n' :: cs) = countNL cs + 1 := by simp [countNL]
      rw [if_pos rfl] at h1
      omega
    · have h3 : countNL (c :: cs) = countNL cs := by
        simp [countNL, List.count_cons_of_ne (Ne.symm hc)]
      rw [if_neg hc] at h1
      omega

/-! ### Exact-shape equations over a healthy sink -/

lemma spaceWriteTo_of_ok (w : Writer) (hf : w.sinkFails = false) :
    spaceWriteTo w = ({ w with out := w.out ++ w.space, space := [] }, none) := by
  unfold spaceWriteTo
  split
  next hE => cases w; simp_all
  next hE => simp [sinkWrite, hf]

lemma wordWriteTo_of_ok (w : Writer) (hf : w.sinkFails = false) :
    wordWriteTo w = ({ w with out := w.out ++ w.word, word := [] }, none) := by
  unfold wordWriteTo
  split
  next hE => cases w; simp_all
  next hE => simp [sinkWrite, hf]

lemma writeSpaces_of_ok (w : Writer) (hf : w.sinkFails = false) :
    writeSpaces w =
      ({ w with
           pos := w.pos + (utf8Len w.space : Int),
           out := w.out ++ w.space,
           space := [] },
       none) := by
  unfold writeSpaces
  exact spaceWriteTo_of_ok { w with pos := w.pos + (utf8Len w.space : Int) } hf

lemma writePrefix_eq_skip (w : Writer) (h : w.newLine = false ∨ w.pfxLen < 1) :
    writePrefix w = (w, none) := by
  unfold writePrefix
  rw [if_pos h]

lemma writePrefix_eq_write (w : Writer) (hf : w.sinkFails = false)
    (h : ¬ (w.newLine = false ∨ w.pfxLen < 1)) :
    writePrefix w =
      ({ w with
           newLine := false,
           pos := w.pos + w.pfxLen,
           out := w.out ++ w.pfx },
       none) := by
  unfold writePrefix
  rw [if_neg h]
  simp [sinkWrite, hf]

lemma writeNewLine_of_ok (w : Writer) (hf : w.sinkFails = false) :
    writeNewLine w =
      ({ w with
           newLine := true,
           pos := 0,
           space := [],
           out := w.out ++
             (if w.newLine = false ∨ w.pfxLen < 1 then [] else w.pfx) ++ ['\n'] },
       none) := by
  unfold writeNewLine
  by_cases h : w.newLine = false ∨ w.pfxLen < 1
  · rw [writePrefix_eq_skip w h]
    simp [sinkWrite, hf, h]
  · rw [writePrefix_eq_write w hf h]
    simp [sinkWrite, hf, h]

lemma writeWord_of_ok_skip (w : Writer) (hf : w.sinkFails = false)
    (h : ¬ w.wordLen < 1) (hskip : w.newLine = false ∨ w.pfxLen < 1) :
    writeWord w =
      ({ w with
           pos := w.pos + (utf8Len w.space : Int) + w.wordLen,
           out := w.out ++ w.space ++ w.word,
           space := [],
           word := [],
           wordLen := 0 },
       none) := by
  have e3 := wordWriteTo_of_ok
    ({ w with
         pos := w.pos + (utf8Len w.space : Int),
         out := w.out ++ w.space,
         space := [] } : Writer) hf
  unfold writeWord
  rw [if_neg h, writePrefix_eq_skip w hskip]
  dsimp only
  rw [writeSpaces_of_ok w hf]
  dsimp only
  rw [e3]

lemma writeWord_of_ok_pfx (w : Writer) (hf : w.sinkFails = false)
    (h : ¬ w.wordLen < 1) (hp : ¬ (w.newLine = false ∨ w.pfxLen < 1)) :
    writeWord w =
      ({ w with
           newLine := false,
           pos := w.pos + w.pfxLen + (utf8Len w.space : Int) + w.wordLen,
           out := w.out ++ w.pfx ++ w.space ++ w.word,
           space := [],
           word := [],
           wordLen := 0 },
       none) := by
  have e2 := writeSpaces_of_ok
    ({ w with
         newLine := false,
         pos := w.pos + w.pfxLen,
         out := w.out ++ w.pfx } : Writer) hf
  have e3 := wordWriteTo_of_ok
    ({ w with
         newLine := false,
         pos := w.pos + w.pfxLen + (utf8Len w.space : Int),
         out := (w.out ++ w.pfx) ++ w.space,
         space := [] } : Writer) hf
  unfold writeWord
  rw [if_neg h, writePrefix_eq_write w hf hp]
  dsimp only
  rw [e2]
  dsimp only
  rw [e3]

/-! ### The word-length invariant (C10) -/

/-- `wordLen` tracks the number of code points in the word buffer. -/
def wordInv (w : Writer) : Prop := w.wordLen = (w.word.length : Int)

lemma word_sinkWrite (w : Writer) (s : List Char) :
    (sinkWrite w s).1.word = w.word ∧ (sinkWrite w s).1.wordLen = w.wordLen :=
  ⟨rfl, rfl⟩

lemma word_spaceWriteTo (w : Writer) :
    (spaceWriteTo w).1.word = w.word ∧ (spaceWriteTo w).1.wordLen = w.wordLen := by
  unfold spaceWriteTo
  split <;> exact ⟨rfl, rfl⟩

lemma word_writeSpaces (w : Writer) :
    (writeSpaces w).1.word = w.word ∧ (writeSpaces w).1.wordLen = w.wordLen :=
  word_spaceWriteTo _

lemma word_writePrefix (w : Writer) :
    (writePrefix w).1.word = w.word ∧ (writePrefix w).1.wordLen = w.wordLen := by
  unfold writePrefix
  split <;> exact ⟨rfl, rfl⟩

lemma word_writeNewLine (w : Writer) :
    (writeNewLine w).1.word = w.word ∧ (writeNewLine w).1.wordLen = w.wordLen := by
  unfold writeNewLine
  split
  next w1 u heq =>
    have h1 := word_writePrefix w
    rw [heq] at h1
    exact h1
  next w1 heq =>
    have h1 := word_writePrefix w
    rw [heq] at h1
    exact h1

lemma wordWriteTo_word (w : Writer) : (wordWriteTo w).1.word = [] := by
  unfold wordWriteTo
  split
  next hE => exact hE
  next hE => rfl

lemma wordInv_writeWord (w : Writer) (h : wordInv w) : wordInv (writeWord w).1 := by
  unfold writeWord
  split
  · exact h
  · split
    next w1 u heq =>
      have h1 := word_writePrefix w
      rw [heq] at h1
      unfold wordInv
      rw [h1.1, h1.2]
      exact h
    next w1 heq =>
      have h1 := word_writePrefix w
      rw [heq] at h1
      split
      next w2 u heq2 =>
        have h2 := word_writeSpaces w1
        rw [heq2] at h2
        unfold wordInv
        rw [h2.1, h2.2, h1.1, h1.2]
        exact h
      next w2 heq2 =>
        have hw := wordWriteTo_word w2
        rcases hrw : wordWriteTo w2 with ⟨w3, e3⟩
        rw [hrw] at hw
        dsimp only at hw
        unfold wordInv
        simp [hw]

lemma wordInv_processChar (w : Writer) (c : Char) (h : wordInv w) :
    wordInv (processChar w c) := by
  unfold processChar
  dsimp only
  split
  · -- newline branch
    have hmid : wordInv (if w.wordLen = 0 then
        if w.pos + (utf8Len w.space : Int) > w.width then
          { w with pos := 0, space := [] }
        else (spaceWriteTo w).1
      else w) := by
      split
      · split
        · exact h
        · unfold wordInv
          rw [(word_spaceWriteTo w).1, (word_spaceWriteTo w).2]
          exact h
      · exact h
    have h2 := wordInv_writeWord _ hmid
    unfold wordInv
    rw [(word_writeNewLine _).1, (word_writeNewLine _).2]
    exact h2
  · split
    · have h2 := wordInv_writeWord w h
      split
      · exact h2
      · exact h2
    · split
      · -- breakpoint branch
        have h1 : wordInv (writeSpaces w).1 := by
          unfold wordInv
          rw [(word_writeSpaces w).1, (word_writeSpaces w).2]
          exact h
        have h2 := wordInv_writeWord _ h1
        unfold wordInv
        exact h2
      · -- word branch
        have h1 : wordInv { w with word := w.word ++ [c], wordLen := w.wordLen + 1 } := by
          unfold wordInv at h ⊢
          simp [h]
        split
        · unfold wordInv
          rw [(word_writeNewLine _).1, (word_writeNewLine _).2]
          exact h1
        · exact h1

lemma wordInv_writeLoop (w : Writer) (cs : List Char) (h : wordInv w) :
    wordInv (writeLoop w cs) := by
  induction cs generalizing w with
  | nil => exact h
  | cons c cs ih => exact ih _ (wordInv_processChar w c h)

lemma wordInv_write (w : Writer) (cs : List Char) (h : wordInv w) :
    wordInv (write w cs).1 := by
  unfold write
  split
  · unfold wordInv
    exact h
  · exact wordInv_writeWord _ (wordInv_writeLoop w cs h)

lemma writeWord_flushes (w : Writer) (h : wordInv w) (hf : w.sinkFails = false) :
    (writeWord w).1.wordLen = 0 ∧ (writeWord w).1.word = [] := by
  by_cases hlt : w.wordLen < 1
  · rw [writeWord_of_lt w hlt]
    dsimp only
    unfold wordInv at h
    have hz : w.word.length = 0 := by omega
    exact ⟨by omega, List.length_eq_zero.mp hz⟩
  · by_cases hskip : w.newLine = false ∨ w.pfxLen < 1
    · rw [writeWord_of_ok_skip w hf hlt hskip]
      exact ⟨rfl, rfl⟩
    · rw [writeWord_of_ok_pfx w hf hlt hskip]
      exact ⟨rfl, rfl⟩

/-! ### The no-overflow invariant (C1) -/

lemma length_le_utf8Len (s : List Char) : s.length ≤ utf8Len s := by
  induction s with
  | nil => simp [utf8Len]
  | cons c cs ih =>
    have := Char.utf8Size_pos c
    simp only [utf8Len, List.map_cons, List.sum_cons, List.length_cons]
    simp only [utf8Len] at ih
    omega

lemma eq_nil_of_utf8Len_eq_zero (s : List Char) (h : utf8Len s = 0) : s = [] := by
  have h1 := length_le_utf8Len s
  have h2 : s.length = 0 := by omega
  exact List.length_eq_zero.mp h2

/-- A line is acceptable when it fits in the width or consists of word
content only (no whitespace), the single-long-word exception. -/
def okLine (W : Int) (l : List Char) : Prop :=
  (l.length : Int) ≤ W ∨ ∀ c ∈ l, isSpaceRune c = false

/-- `DoneOk W d`: `d` is a sequence of completed, newline-terminated
lines, each acceptable. -/
inductive DoneOk (W : Int) : List Char → Prop where
  | nil : DoneOk W []
  | snoc (d l : List Char) (hd : DoneOk W d) (hl : okLine W l)
      (hn : '\n' ∉ l) : DoneOk W (d ++ (l ++ ['\n']))

/-- Reassemble lines: the inverse of splitting a byte sequence at its
`'\n'` bytes. -/
def joinLines : List (List Char) → List Char
  | [] => []
  | [l] => l
  | l :: l2 :: ls => l ++ '\n' :: joinLines (l2 :: ls)

lemma joinLines_append_singleton (lns : List (List Char)) (h : lns ≠ [])
    (cur : List Char) :
    joinLines (lns ++ [cur]) = joinLines lns ++ '\n' :: cur := by
  induction lns with
  | nil => exact absurd rfl h
  | cons a ls ih =>
    cases ls with
    | nil => simp [joinLines]
    | cons b ls2 =>
      have ih2 := ih (by simp)
      simp only [List.cons_append, joinLines, List.append_eq] at ih2 ⊢
      rw [ih2]
      simp

lemma DoneOk_join (W : Int) (d : List Char) (hd : DoneOk W d) :
    ∀ cur, '\n' ∉ cur → okLine W cur →
      ∃ lns, lns ≠ [] ∧ d ++ cur = joinLines lns ∧
        ∀ l ∈ lns, '\n' ∉ l ∧ okLine W l := by
  induction hd with
  | nil =>
    intro cur h1 h2
    exact ⟨[cur], by simp, by simp [joinLines], by simp [h1, h2]⟩
  | snoc d l hd hl hn ih =>
    intro cur h1 h2
    obtain ⟨lns, hne, hjoin, hall⟩ := ih l hn hl
    refine ⟨lns ++ [cur], by simp, ?_, ?_⟩
    · rw [joinLines_append_singleton lns hne cur, ← hjoin]
      simp
    · intro x hx
      rcases List.mem_append.mp hx with hx | hx
      · exact hall x hx
      · rw [List.mem_singleton.mp hx]
        exact ⟨h1, h2⟩

/-- The inductive invariant for the no-overflow proof, for the default
configuration (no prefix, no breakpoints, no tab expansion, healthy
sink).  The last component decomposes the sink output into completed
acceptable lines plus the current open line `cur`, and bounds the
in-progress line. -/
structure C1Inv (W : Int) (w : Writer) : Prop where
  hW : w.width = W
  hpfxLen : w.pfxLen < 1
  hbp : w.breakpoints = []
  htab : w.tabWidh = 0
  hsf : w.sinkFails = false
  hpos : 0 ≤ w.pos
  hlen : w.wordLen = (w.word.length : Int)
  hword : ∀ c ∈ w.word, isSpaceRune c = false
  hspace : '\n' ∉ w.space
  hout : ∃ done cur, w.out = done ++ cur ∧ DoneOk W done ∧ '\n' ∉ cur ∧
    (cur.length : Int) ≤ w.pos ∧
    (w.word = [] → okLine W cur) ∧
    (w.word ≠ [] →
      (w.pos + (w.word.length : Int) + (utf8Len w.space : Int) ≤ W ∨
       (W ≤ (w.word.length : Int) ∧ w.pos = 0 ∧ w.space = [] ∧ cur = [])))

lemma okLine_nil (W : Int) (hW : 1 ≤ W) : okLine W [] :=
  Or.inl (by simp; omega)

lemma word_nil_of_len (w : Writer) (hlen : w.wordLen = (w.word.length : Int))
    (hw0 : w.wordLen = 0) : w.word = [] := by
  rw [hw0] at hlen
  exact List.length_eq_zero.mp (by exact_mod_cast hlen.symm)

lemma flushed_line_ok (W : Int) (w : Writer) (cur : List Char)
    (hpos : 0 ≤ w.pos) (hcl : (cur.length : Int) ≤ w.pos)
    (hword : ∀ c ∈ w.word, isSpaceRune c = false)
    (hm1 : w.pos + (w.word.length : Int) + (utf8Len w.space : Int) ≤ W ∨
           (W ≤ (w.word.length : Int) ∧ w.pos = 0 ∧ w.space = [] ∧ cur = [])) :
    okLine W (cur ++ w.space ++ w.word) := by
  rcases hm1 with h | ⟨h1, h2, h3, h4⟩
  · left
    have hs := length_le_utf8Len w.space
    simp only [List.length_append]
    push_cast
    omega
  · right
    rw [h3, h4]
    simpa using hword

lemma flushed_line_noNL (w : Writer) (cur : List Char) (hnl : '\n' ∉ cur)
    (hspace : '\n' ∉ w.space)
    (hword : ∀ c ∈ w.word, isSpaceRune c = false) :
    '\n' ∉ cur ++ w.space ++ w.word := by
  intro hmem
  rcases List.mem_append.mp hmem with h | h
  · rcases List.mem_append.mp h with h | h
    · exact hnl h
    · exact hspace h
  · have := hword '\n' h
    simp [isSpaceRune] at this

lemma cur_okLine (W : Int) (hW : 1 ≤ W) (w : Writer) (cur : List Char)
    (hcl : (cur.length : Int) ≤ w.pos)
    (hm0 : w.word = [] → okLine W cur)
    (hm1 : w.word ≠ [] →
      (w.pos + (w.word.length : Int) + (utf8Len w.space : Int) ≤ W ∨
       (W ≤ (w.word.length : Int) ∧ w.pos = 0 ∧ w.space = [] ∧ cur = []))) :
    okLine W cur := by
  by_cases hw : w.word = []
  · exact hm0 hw
  · rcases hm1 hw with h | ⟨h1, h2, h3, h4⟩
    · left
      have h5 : (0 : Int) ≤ (w.word.length : Int) := by positivity
      have h6 : (0 : Int) ≤ (utf8Len w.space : Int) := by positivity
      omega
    · rw [h4]
      exact okLine_nil W hW

lemma c1inv_step_newline (W : Int) (hW : 1 ≤ W) (w : Writer) (inv : C1Inv W w) :
    C1Inv W (processChar w '\n') := by
  obtain ⟨hWid, hpfxLen, hbp, htab, hsf, hpos, hlen, hword, hspace,
    done, cur, houtEq, hdone, hnl, hcl, hm0, hm1⟩ := inv
  unfold processChar
  rw [if_pos rfl]
  by_cases hw0 : w.wordLen = 0
  · rw [if_pos hw0]
    have hwnil : w.word = [] := word_nil_of_len w hlen hw0
    by_cases hfit : w.pos + (utf8Len w.space : Int) > w.width
    · rw [if_pos hfit]
      dsimp only
      rw [writeWord_of_lt ({ w with pos := 0, space := [] } : Writer) (by simp [hw0])]
      dsimp only
      rw [writeNewLine_of_ok ({ w with pos := 0, space := [] } : Writer) hsf]
      dsimp only
      rw [if_pos (Or.inr hpfxLen : w.newLine = false ∨ w.pfxLen < 1)]
      refine ⟨hWid, hpfxLen, hbp, htab, hsf, le_refl 0, hlen, hword, by simp, ?_⟩
      refine ⟨done ++ (cur ++ ['\n']), [], ?_,
        DoneOk.snoc done cur hdone (hm0 hwnil) hnl, by simp, by simp,
        fun _ => okLine_nil W hW, fun h => absurd hwnil h⟩
      simp [houtEq]
    · rw [if_neg hfit]
      rw [spaceWriteTo_of_ok w hsf]
      dsimp only
      rw [writeWord_of_lt ({ w with out := w.out ++ w.space, space := [] } : Writer)
        (by simp [hw0])]
      dsimp only
      rw [writeNewLine_of_ok ({ w with out := w.out ++ w.space, space := [] } : Writer)
        hsf]
      dsimp only
      rw [if_pos (Or.inr hpfxLen : w.newLine = false ∨ w.pfxLen < 1)]
      have hokcs : okLine W (cur ++ w.space) := by
        left
        have hs := length_le_utf8Len w.space
        simp only [List.length_append]
        push_cast
        omega
      have hnlcs : '\n' ∉ cur ++ w.space := by
        intro hmem
        rcases List.mem_append.mp hmem with h | h
        · exact hnl h
        · exact hspace h
      refine ⟨hWid, hpfxLen, hbp, htab, hsf, le_refl 0, hlen, hword, by simp, ?_⟩
      refine ⟨done ++ ((cur ++ w.space) ++ ['\n']), [], ?_,
        DoneOk.snoc done (cur ++ w.space) hdone hokcs hnlcs, by simp, by simp,
        fun _ => okLine_nil W hW, fun h => absurd hwnil h⟩
      simp [houtEq]
  · rw [if_neg hw0]
    dsimp only
    have hwne : w.word ≠ [] := by
      intro h
      apply hw0
      rw [hlen, h]
      rfl
    have hlt : ¬ w.wordLen < 1 := by
      rw [hlen]
      have h1 : w.word.length ≠ 0 := fun h => hwne (List.length_eq_zero.mp h)
      omega
    rw [writeWord_of_ok_skip w hsf hlt (Or.inr hpfxLen)]
    dsimp only
    rw [writeNewLine_of_ok
      ({ w with
           pos := w.pos + (utf8Len w.space : Int) + w.wordLen,
           out := w.out ++ w.space ++ w.word,
           space := [],
           word := [],
           wordLen := 0 } : Writer) hsf]
    dsimp only
    rw [if_pos (Or.inr hpfxLen : w.newLine = false ∨ w.pfxLen < 1)]
    have hokf := flushed_line_ok W w cur hpos hcl hword (hm1 hwne)
    have hnlf := flushed_line_noNL w cur hnl hspace hword
    refine ⟨hWid, hpfxLen, hbp, htab, hsf, le_refl 0, by simp, by simp, by simp, ?_⟩
    refine ⟨done ++ ((cur ++ w.space ++ w.word) ++ ['\n']), [], ?_,
      DoneOk.snoc done (cur ++ w.space ++ w.word) hdone hokf hnlf, by simp, by simp,
      fun _ => okLine_nil W hW, fun h => absurd rfl h⟩
    simp [houtEq]

lemma c1inv_step_space (W : Int) (hW : 1 ≤ W) (w : Writer) (inv : C1Inv W w)
    (c : Char) (hc1 : ¬ c = '\n') (hc2 : isSpaceRune c = true) :
    C1Inv W (processChar w c) := by
  obtain ⟨hWid, hpfxLen, hbp, htab, hsf, hpos, hlen, hword, hspace,
    done, cur, houtEq, hdone, hnl, hcl, hm0, hm1⟩ := inv
  have hnlc : '\n' ∉ ([c] : List Char) := by
    simp only [List.mem_singleton]
    exact fun h => hc1 h.symm
  unfold processChar
  rw [if_neg hc1, if_pos hc2]
  dsimp only
  by_cases hw0 : w.wordLen < 1
  · rw [writeWord_of_lt w hw0]
    dsimp only
    rw [if_neg (by simp [htab] : ¬ (c = '\t' ∧ w.tabWidh > 0))]
    have hwnil : w.word = [] := word_nil_of_len w hlen (by omega)
    refine ⟨hWid, hpfxLen, hbp, htab, hsf, hpos, hlen, hword, ?_, ?_⟩
    · intro hmem
      rcases List.mem_append.mp hmem with h | h
      · exact hspace h
      · exact hnlc h
    · exact ⟨done, cur, houtEq, hdone, hnl, hcl, hm0, fun h => absurd hwnil h⟩
  · rw [writeWord_of_ok_skip w hsf hw0 (Or.inr hpfxLen)]
    dsimp only
    rw [if_neg (by simp [htab] : ¬ (c = '\t' ∧ w.tabWidh > 0))]
    have hwne : w.word ≠ [] := by
      intro h
      rw [hlen, h] at hw0
      exact hw0 (by simp)
    refine ⟨hWid, hpfxLen, hbp, htab, hsf, ?_, by simp, by simp, ?_, ?_⟩
    · show (0 : Int) ≤ w.pos + (utf8Len w.space : Int) + w.wordLen
      have h1 : (0 : Int) ≤ (utf8Len w.space : Int) := by positivity
      have h2 : (0 : Int) ≤ (w.word.length : Int) := by positivity
      rw [hlen]
      omega
    · intro hmem
      rcases List.mem_append.mp hmem with h | h
      · simp at h
      · exact hnlc h
    · refine ⟨done, cur ++ w.space ++ w.word, by simp [houtEq], hdone,
        flushed_line_noNL w cur hnl hspace hword, ?_,
        fun _ => flushed_line_ok W w cur hpos hcl hword (hm1 hwne),
        fun h => absurd rfl h⟩
      have hs := length_le_utf8Len w.space
      simp only [List.length_append]
      rw [hlen]
      push_cast
      omega

lemma c1inv_step_word (W : Int) (hW : 1 ≤ W) (w : Writer) (inv : C1Inv W w)
    (c : Char) (hc1 : ¬ c = '\n') (hc2 : isSpaceRune c = false) :
    C1Inv W (processChar w c) := by
  obtain ⟨hWid, hpfxLen, hbp, htab, hsf, hpos, hlen, hword, hspace,
    done, cur, houtEq, hdone, hnl, hcl, hm0, hm1⟩ := inv
  have hword1 : ∀ x ∈ w.word ++ [c], isSpaceRune x = false := by
    intro x hx
    rcases List.mem_append.mp hx with h | h
    · exact hword x h
    · rw [List.mem_singleton.mp h]
      exact hc2
  have hlen1 : w.wordLen + 1 = ((w.word ++ [c]).length : Int) := by
    rw [hlen]
    push_cast
    simp
  unfold processChar
  rw [if_neg hc1, if_neg (by simp [hc2]), if_neg (by simp [isBreakpoint, hbp])]
  dsimp only
  by_cases hcond : w.pos + (w.wordLen + 1) + (utf8Len w.space : Int) ≥ w.width ∧
      w.wordLen + 1 ≤ w.width
  · rw [if_pos hcond]
    rw [writeNewLine_of_ok
      ({ w with word := w.word ++ [c], wordLen := w.wordLen + 1 } : Writer) hsf]
    dsimp only
    rw [if_pos (Or.inr hpfxLen : w.newLine = false ∨ w.pfxLen < 1)]
    refine ⟨hWid, hpfxLen, hbp, htab, hsf, le_refl 0, hlen1, hword1, by simp, ?_⟩
    refine ⟨done ++ (cur ++ ['\n']), [], by simp [houtEq],
      DoneOk.snoc done cur hdone (cur_okLine W hW w cur hcl hm0 hm1) hnl,
      by simp, by simp, fun _ => okLine_nil W hW, fun _ => Or.inl ?_⟩
    have hc2w := hcond.2
    rw [hWid] at hc2w
    rw [hlen] at hc2w
    simp only [List.length_append, List.length_singleton, utf8Len, List.map_nil,
      List.sum_nil]
    push_cast
    push_cast at hc2w
    omega
  · rw [if_neg hcond]
    refine ⟨hWid, hpfxLen, hbp, htab, hsf, hpos, hlen1, hword1, hspace, ?_⟩
    refine ⟨done, cur, houtEq, hdone, hnl, hcl, fun h => absurd h (by simp), fun _ => ?_⟩
    rw [not_and_or] at hcond
    rcases hcond with hA | hB
    · left
      rw [not_le] at hA
      rw [hWid] at hA
      rw [hlen] at hA
      push_cast at hA ⊢
      omega
    · rw [not_le] at hB
      rw [hWid] at hB
      by_cases hwnil : w.word = []
      · exfalso
        rw [hlen, hwnil] at hB
        simp at hB
        omega
      · rcases hm1 hwnil with hL | ⟨hR1, hR2, hR3, hR4⟩
        · have hs : (0 : Int) ≤ (utf8Len w.space : Int) := by positivity
          have hcln : (0 : Int) ≤ (cur.length : Int) := by positivity
          have hBl : W < (w.word.length : Int) + 1 := by
            rw [hlen] at hB
            omega
          have hpz : w.pos = 0 ∧ (utf8Len w.space : Int) = 0 := by
            constructor <;> omega
          have hsz : w.space = [] :=
            eq_nil_of_utf8Len_eq_zero w.space (by exact_mod_cast hpz.2)
          have hcz : cur = [] := by
            have : (cur.length : Int) ≤ 0 := by rw [← hpz.1]; exact hcl
            have : cur.length = 0 := by omega
            exact List.length_eq_zero.mp this
          right
          push_cast
          exact ⟨by omega, hpz.1, hsz, hcz⟩
        · right
          push_cast
          refine ⟨?_, hR2, hR3, hR4⟩
          have : W ≤ (w.word.length : Int) := hR1
          omega

lemma c1inv_processChar (W : Int) (hW : 1 ≤ W) (w : Writer) (inv : C1Inv W w)
    (c : Char) : C1Inv W (processChar w c) := by
  by_cases h1 : c = '\n'
  · rw [h1]
    exact c1inv_step_newline W hW w inv
  · by_cases h2 : isSpaceRune c = true
    · exact c1inv_step_space W hW w inv c h1 h2
    · exact c1inv_step_word W hW w inv c h1 (by simpa using h2)

lemma c1inv_writeLoop (W : Int) (hW : 1 ≤ W) (w : Writer) (inv : C1Inv W w)
    (cs : List Char) : C1Inv W (writeLoop w cs) := by
  induction cs generalizing w with
  | nil => exact inv
  | cons c cs ih => exact ih _ (c1inv_processChar W hW w inv c)

lemma c1inv_final (W : Int) (hW : 1 ≤ W) (w : Writer) (inv : C1Inv W w) :
    ∃ done cur, (writeWord w).1.out = done ++ cur ∧ DoneOk W done ∧
      '\n' ∉ cur ∧ okLine W cur := by
  obtain ⟨hWid, hpfxLen, hbp, htab, hsf, hpos, hlen, hword, hspace,
    done, cur, houtEq, hdone, hnl, hcl, hm0, hm1⟩ := inv
  by_cases hw0 : w.wordLen < 1
  · rw [writeWord_of_lt w hw0]
    have hwnil : w.word = [] := word_nil_of_len w hlen (by omega)
    exact ⟨done, cur, houtEq, hdone, hnl, hm0 hwnil⟩
  · rw [writeWord_of_ok_skip w hsf hw0 (Or.inr hpfxLen)]
    dsimp only
    have hwne : w.word ≠ [] := by
      intro h
      rw [hlen, h] at hw0
      exact hw0 (by simp)
    exact ⟨done, cur ++ w.space ++ w.word, by simp [houtEq], hdone,
      flushed_line_noNL w cur hnl hspace hword,
      flushed_line_ok W w cur hpos hcl hword (hm1 hwne)⟩

lemma c1inv_new (width : Nat) : C1Inv (width : Int) (new false width) := by
  refine ⟨rfl, by simp [new], rfl, rfl, rfl, le_refl _, rfl, by simp [new], by simp [new],
    ⟨[], [], rfl, DoneOk.nil, by simp, by simp [new], ?_, ?_⟩⟩
  · intro _
    exact Or.inl (by simp [new])
  · intro h
    exact absurd rfl h

/-! ### Claim theorems -/

/-- C6: whenever the configured width is not positive, `Write` passes its
input straight through: the sink receives exactly the input bytes, every
other state field is left untouched, and the call reports the sink's own
byte count and error. -/
theorem c6_nonpositive_width_passthrough (w : Writer) (cs : List Char)
    (h : w.width < 1) :
    write w cs =
      ({ w with out := w.out ++ cs, sinkErred := w.sinkErred || w.sinkFails },
       utf8Len cs, if w.sinkFails then some () else none) := by
  simp [write, h, sinkWrite]

/-- Witness for C6 at width 0 on the input "a\nb". -/
theorem c6_witness :
    write (new false 0) ['a', '\n', 'b'] =
      ({ new false 0 with
          out := (new false 0).out ++ ['a', '\n', 'b'],
          sinkErred := (new false 0).sinkErred || (new false 0).sinkFails },
       utf8Len ['a', '\n', 'b'],
       if (new false 0).sinkFails then some () else none) :=
  c6_nonpositive_width_passthrough (new false 0) ['a', '\n', 'b'] (by decide)

/-- C8: a fresh `Writer` with width 10 and default configuration turns
the single write "hello world" into exactly "hello\nworld" on the sink. -/
theorem c8_hello_world :
    (write (new false 10)
        ['h', 'e', 'l', 'l', 'o', ' ', 'w', 'o', 'r', 'l', 'd']).1.out =
      ['h', 'e', 'l', 'l', 'o', '\n', 'w', 'o', 'r', 'l', 'd'] := by decide

/-- C9: the one-shot helpers agree: `String(s, width)` is exactly
`Bytes` applied to the UTF-8 bytes of `s` (the embedding identifies a
string with its decoded rune sequence), because both build the same
default `Writer` and `WriteString` merely delegates to `Write`. -/
theorem c9_string_eq_bytes (s : List Char) (width : Nat) :
    wrapString s width = wrapBytes s width := rfl

/-- C3 (the code, at the claim's failing input): with width 10 over a
sink whose every write reports an error, `Write("hello world")` has the
sink fail (`sinkErred`), still consumes and processes all eleven bytes
(the full wrapped text reaches the sink), and returns `n = 11` with a
`nil` error — the sink errors are discarded, contradicting the claim
and the function's own documentation. -/
theorem c3_sink_error_swallowed :
    (write (new true 10)
        ['h', 'e', 'l', 'l', 'o', ' ', 'w', 'o', 'r', 'l', 'd']).1.sinkErred = true ∧
    (write (new true 10)
        ['h', 'e', 'l', 'l', 'o', ' ', 'w', 'o', 'r', 'l', 'd']).1.out =
      ['h', 'e', 'l', 'l', 'o', '\n', 'w', 'o', 'r', 'l', 'd'] ∧
    (write (new true 10)
        ['h', 'e', 'l', 'l', 'o', ' ', 'w', 'o', 'r', 'l', 'd']).2 = (11, none) := by
  decide

/-- C2 counterexample: width 3, input "hello".  One shot gives
"\nhello", but the chunks "he" + "llo" give "he\n\nllo": the flush of
the pending word at the end of every `Write` call makes chunked output
differ. -/
theorem c2_counterexample :
    (write ((write (new false 3) ['h', 'e']).1) ['l', 'l', 'o']).1.out ≠
      (write (new false 3) ['h', 'e', 'l', 'l', 'o']).1.out := by decide

/-- C2 as amended: chunked writes agree with the one-shot write
provided the pending word is empty at the chunk boundary (as when the
first chunk ends in whitespace or a newline); width ≤ 0 mode always
agrees. -/
theorem c2_chunked_write_equiv (w : Writer) (a b : List Char)
    (h : w.width < 1 ∨ (writeLoop w a).wordLen = 0) :
    (write (write w a).1 b).1 = (write w (a ++ b)).1 := by
  rcases h with h | h
  · simp [write, h, sinkWrite, Bool.or_assoc]
  · by_cases hw : w.width < 1
    · simp [write, hw, sinkWrite, Bool.or_assoc]
    · have h1 : (write w a).1 = writeLoop w a := by
        simp [write, hw, writeWord_of_lt _ (by omega : (writeLoop w a).wordLen < 1)]
      have h2 : ¬ (writeLoop w a).width < 1 := by
        rw [width_writeLoop]; exact hw
      rw [h1]
      simp [write, hw, h2, writeLoop_append]

/-- Witness for C2: splitting "he llo" after the space produces the
same state as the one-shot write at width 3. -/
theorem c2_witness :
    (write (write (new false 3) ['h', 'e', ' ']).1 ['l', 'l', 'o']).1 =
      (write (new false 3) ['h', 'e', ' ', 'l', 'l', 'o']).1 :=
  c2_chunked_write_equiv (new false 3) ['h', 'e', ' '] ['l', 'l', 'o']
    (Or.inr (by decide))

/-- C4 counterexample: wrapping "hello world" at width 10 produces one
newline from zero input newlines, so the output newline count does not
equal the input newline count. -/
theorem c4_counterexample :
    countNL (wrapBytes ['h', 'e', 'l', 'l', 'o', ' ', 'w', 'o', 'r', 'l', 'd'] 10) ≠
      countNL ['h', 'e', 'l', 'l', 'o', ' ', 'w', 'o', 'r', 'l', 'd'] := by decide

/-- C4 as amended: over a sink that does not fail, the newline count of
the bytes written to the sink grows by at least the newline count of
the input — every input newline is emitted (each one drives
`writeNewLine`, which writes a `'\n'`), while wrap points may insert
additional newlines. -/
theorem c4_newline_count_ge (w : Writer) (cs : List Char)
    (hf : w.sinkFails = false) :
    countNL w.out + countNL cs ≤ countNL (write w cs).1.out := by
  by_cases hw : w.width < 1
  · simp [write, hw, sinkWrite, countNL, List.count_append]
  · have h1 := countNL_writeLoop w cs hf
    have h2 := countNL_le_writeWord (writeLoop w cs)
    simp only [write, if_neg hw]
    omega

/-- Witness for C4 on the input "a\nb\n\nc" at width 5. -/
theorem c4_witness :
    countNL (new false 5).out + countNL ['a', '\n', 'b', '\n', '\n', 'c'] ≤
      countNL (write (new false 5) ['a', '\n', 'b', '\n', '\n', 'c']).1.out :=
  c4_newline_count_ge (new false 5) ['a', '\n', 'b', '\n', '\n', 'c'] (by decide)

/-- C7: processing a tab first flushes any pending word; then, when the
configured tab width is positive, exactly
`tabWidh - (pos tmod tabWidh)` spaces are appended to the pending
whitespace buffer (Go's `%` is truncated division's remainder), where
`pos` is the position after the flush; otherwise the literal tab
character is appended.  Nothing else changes. -/
theorem c7_tab_expansion (w : Writer) :
    processChar w '\t' =
      (let w2 := (writeWord w).1
      if w2.tabWidh > 0 then
        { w2 with space := w2.space ++
            List.replicate (w2.tabWidh - Int.tmod w2.pos w2.tabWidh).toNat ' ' }
      else
        { w2 with space := w2.space ++ ['\t'] }) := by
  unfold processChar
  dsimp only
  rw [if_neg (by decide : ¬ ('\t' : Char) = '\n'),
    if_pos (by decide : isSpaceRune '\t' = true)]
  simp

/-- C5 counterexample (code-point reading): width 2, the two pending
whitespace characters are two U+00A0 runes, so `position` plus the
code-point length of the pending whitespace does not exceed the width;
the claim then requires the whitespace to be written before the line
break, but the code compares against the buffer's byte length (4) and
discards it: only the newline reaches the sink. -/
theorem c5_counterexample :
    (writeLoop (new false 2) [Char.ofNat 160, Char.ofNat 160]).wordLen = 0 ∧
    (writeLoop (new false 2) [Char.ofNat 160, Char.ofNat 160]).pos +
      ((writeLoop (new false 2) [Char.ofNat 160, Char.ofNat 160]).space.length : Int) ≤
      (writeLoop (new false 2) [Char.ofNat 160, Char.ofNat 160]).width ∧
    (processChar (writeLoop (new false 2) [Char.ofNat 160, Char.ofNat 160]) '\n').out =
      ['\n'] ∧
    (write (new false 2) [Char.ofNat 160, Char.ofNat 160, '\n']).1.out = ['\n'] := by
  decide

/-- C5 as amended: when a newline is processed while the pending word
is empty (over a healthy sink), the pending whitespace is discarded —
never written to the sink — exactly when `position` plus its length in
UTF-8 bytes exceeds the width, and is otherwise written through to the
sink immediately before the line break (before any due prefix and the
newline byte); the whitespace buffer is empty and the position is 0
afterwards. -/
theorem c5_newline_pending_whitespace (w : Writer) (h0 : w.wordLen = 0)
    (hf : w.sinkFails = false) :
    (processChar w '\n').out =
      w.out ++ (if w.pos + (utf8Len w.space : Int) > w.width then [] else w.space)
        ++ (if w.newLine = false ∨ w.pfxLen < 1 then [] else w.pfx) ++ ['\n'] ∧
    (processChar w '\n').space = [] ∧ (processChar w '\n').pos = 0 := by
  unfold processChar
  rw [if_pos rfl, if_pos h0]
  by_cases hfit : w.pos + (utf8Len w.space : Int) > w.width
  · rw [if_pos hfit]
    dsimp only
    rw [writeWord_of_lt ({ w with pos := 0, space := [] } : Writer) (by simp [h0])]
    dsimp only
    rw [writeNewLine_of_ok ({ w with pos := 0, space := [] } : Writer) hf]
    simp [hfit]
  · rw [if_neg hfit]
    rw [spaceWriteTo_of_ok w hf]
    dsimp only
    rw [writeWord_of_lt ({ w with out := w.out ++ w.space, space := [] } : Writer)
      (by simp [h0])]
    dsimp only
    rw [writeNewLine_of_ok ({ w with out := w.out ++ w.space, space := [] } : Writer) hf]
    simp [hfit]

/-- Witness for C5: after writing "ab " at width 5 the pending word is
empty and a newline preserves the fitting pending space. -/
theorem c5_witness :
    (let w := writeLoop (new false 5) ['a', 'b', ' ']
     (processChar w '\n').out =
       w.out ++ (if w.pos + (utf8Len w.space : Int) > w.width then [] else w.space)
         ++ (if w.newLine = false ∨ w.pfxLen < 1 then [] else w.pfx) ++ ['\n'] ∧
     (processChar w '\n').space = [] ∧ (processChar w '\n').pos = 0) :=
  c5_newline_pending_whitespace (writeLoop (new false 5) ['a', 'b', ' '])
    (by decide) (by decide)

/-- C10: `wordLen` always equals the number of code points in the word
buffer — the invariant is preserved by every rune step, by `Write` and
all its variants, and by every configuration setter; and over a healthy
sink every flush of the word leaves both at zero. -/
theorem c10_wordlen_tracks_word (w : Writer) (h : wordInv w) :
    (∀ c, wordInv (processChar w c)) ∧
    (∀ cs, wordInv (write w cs).1) ∧
    (∀ cs, wordInv (writeString w cs).1) ∧
    (∀ c, wordInv (writeByte w c).1) ∧
    (∀ c, wordInv (writeRune w c).1) ∧
    (∀ n, wordInv (setTabWidth w n)) ∧
    (∀ s, wordInv (setPrefix w s)) ∧
    (∀ s, wordInv (setBreakpoints w s)) ∧
    (∀ p, wordInv (setPosition w p)) ∧
    (w.sinkFails = false →
      (writeWord w).1.wordLen = 0 ∧ (writeWord w).1.word = []) := by
  refine ⟨fun c => wordInv_processChar w c h, fun cs => wordInv_write w cs h,
    fun cs => wordInv_write w cs h, fun c => wordInv_write w [c] h,
    fun c => wordInv_write w [c] h, fun n => h, fun s => h, fun s => h,
    fun p => h, fun hf => writeWord_flushes w h hf⟩

/-- C1: for a fresh `Writer` of width `W ≥ 1`, the sink output of any
`Write` call decomposes into lines (the pieces between consecutive
`'\n'` bytes, none containing `'\n'`), each of which either has at most
`W` code points or contains no whitespace at all — i.e. it consists of
a single word, whose length is then trivially the line's length (the
permitted long-word overflow). -/
theorem c1_no_overflow (width : Nat) (cs : List Char) (hW : 1 ≤ width) :
    ∃ lns : List (List Char),
      (write (new false width) cs).1.out = joinLines lns ∧
      ∀ l ∈ lns, '\n' ∉ l ∧
        ((l.length : Int) ≤ (width : Int) ∨ ∀ c ∈ l, isSpaceRune c = false) := by
  have hWi : (1 : Int) ≤ (width : Int) := by exact_mod_cast hW
  have invL := c1inv_writeLoop (width : Int) hWi (new false width) (c1inv_new width) cs
  obtain ⟨done, cur, hout, hdone, hnl, hok⟩ := c1inv_final (width : Int) hWi _ invL
  obtain ⟨lns, hne, hjoin, hall⟩ := DoneOk_join (width : Int) done hdone cur hnl hok
  have hwidth : ¬ (new false width).width < 1 := by
    show ¬ ((width : Int) < 1)
    omega
  refine ⟨lns, ?_, fun l hl => ⟨(hall l hl).1, (hall l hl).2⟩⟩
  simp only [write, if_neg hwidth]
  rw [hout, hjoin]

/-- Witness for C1 at width 3 on the input "ab cd". -/
theorem c1_witness :
    ∃ lns : List (List Char),
      (write (new false 3) ['a', 'b', ' ', 'c', 'd']).1.out = joinLines lns ∧
      ∀ l ∈ lns, '\n' ∉ l ∧
        ((l.length : Int) ≤ ((3 : Nat) : Int) ∨ ∀ c ∈ l, isSpaceRune c = false) :=
  c1_no_overflow 3 ['a', 'b', ' ', 'c', 'd'] (by decide)

/-- Witness for C10 on a fresh writer after a concrete write. -/
theorem c10_witness :
    wordInv (write (new false 5) ['a', 'b', ' ', 'c']).1 ∧
    (writeWord (writeLoop (new false 5) ['a', 'b'])).1.wordLen = 0 :=
  ⟨(c10_wordlen_tracks_word (new false 5) (by unfold wordInv; decide)).2.1
      ['a', 'b', ' ', 'c'],
   ((c10_wordlen_tracks_word (writeLoop (new false 5) ['a', 'b'])
       (by unfold wordInv; decide)).2.2.2.2.2.2.2.2.2 (by decide)).1⟩

end Wordwrap
